import Mathlib

/-
Verification of the MiniGit core (src/minigit.py) against its specification.

The repository state is modelled with association lists keyed by strings:
the working tree, the object store (.minigit/objects), the commit log
(.minigit/commits, one record per id) and the staging index
(.minigit/index.json, the ordered "staged" list). File contents are lists
of byte values. The content hash (SHA-1 in the source, hash_file_bytes)
and the path normalization (os.path.normpath) are deterministic functions
taken as parameters of the model; the file system resolves a path up to
normalization, so working-tree lookups key on the normalized path.
-/

namespace MiniGit

/-- Bytes of a file, as a list of byte values. -/
abbrev Bytes := List Nat

/-- Association-list lookup by key, first match wins. Models looking up a
file by name in a directory, or a JSON object field. -/
def alookup {α : Type} (k : String) : List (String × α) → Option α
  | [] => none
  | kv :: t => if kv.1 = k then some kv.2 else alookup k t

/-- Association-list update: overwrite the value at a key in place, or
append the pair when the key is absent. Models writing a file by name. -/
def aset {α : Type} (k : String) (v : α) : List (String × α) → List (String × α)
  | [] => [(k, v)]
  | kv :: t => if kv.1 = k then (k, v) :: t else kv :: aset k v t

/-- Characters after the last slash of a character list. -/
def baseNameChars (l : List Char) : List Char :=
  l.foldl (fun acc c => if c = '/' then [] else acc ++ [c]) []

/-- Model of os.path.basename for POSIX paths: the part after the last
slash (minigit.py line 96). -/
def baseName (p : String) : String := String.mk (baseNameChars p.data)

/-- One entry of the staging index: {"path": ..., "sha": ...}
(minigit.py line 70). -/
structure StagedEntry where
  path : String
  sha : String
deriving DecidableEq

/-- One file entry of a commit record: {"path": ..., "object": ...,
"sha": ...} (minigit.py lines 102-106). -/
structure FileMeta where
  path : String
  object : String
  sha : String
deriving DecidableEq

/-- A commit record as persisted in .minigit/commits/id.json
(minigit.py lines 108-113). -/
structure CommitObj where
  id : String
  timestamp : String
  message : String
  files : List FileMeta
deriving DecidableEq

/-- The whole repository state: working tree plus the three durable
structures of the .minigit directory. -/
structure RepoState where
  worktree : List (String × Bytes)
  objects : List (String × Bytes)
  commits : List (String × CommitObj)
  staged : List StagedEntry
deriving DecidableEq

/-- The durable part of the state: what survives a crash, i.e. the
contents of the .minigit directory. -/
structure DurableState where
  commits : List (String × CommitObj)
  objects : List (String × Bytes)
  staged : List StagedEntry
deriving DecidableEq

/-- Project a repository state to its durable part. -/
def RepoState.durable (st : RepoState) : DurableState :=
  ⟨st.commits, st.objects, st.staged⟩

section Model

variable (norm : String → String) (hash : Bytes → String)

/-- Read a working-tree file. The file system resolves a path up to
normalization, so the lookup keys on the normalized path. -/
def fsGet (fs : List (String × Bytes)) (p : String) : Option Bytes :=
  alookup (norm p) fs

/-- Write (create or overwrite) a working-tree file. -/
def fsPut (fs : List (String × Bytes)) (p : String) (b : Bytes) :
    List (String × Bytes) :=
  aset (norm p) b fs

/-- Delete a working-tree file. -/
def fsDel (fs : List (String × Bytes)) (p : String) : List (String × Bytes) :=
  fs.filter (fun kv => kv.1 ≠ norm p)

/-- Model of cmd_add (minigit.py lines 57-73): raise SystemExit when the
path does not exist, normalize the path, drop any staged entry with the
same normalized path, hash the bytes read from the normalized path and
append the fresh staged entry. Working tree, object store and commit log
are untouched. -/
def cmd_add (st : RepoState) (path : String) : Except String RepoState :=
  match fsGet norm st.worktree path with
  | none => .error ("Archivo no encontrado: " ++ path)
  | some _ =>
    match fsGet norm st.worktree (norm path) with
    | none => .error ("IOError: " ++ norm path)
    | some b =>
      .ok { st with staged :=
        (st.staged.filter (fun s => s.path ≠ norm path)) ++
          [⟨norm path, hash b⟩] }

/-- Model of the object-store write inside cmd_commit (minigit.py lines
100-101): copy the bytes only when no object of that exact name exists;
otherwise the call is a no-op. -/
def putObject (objects : List (String × Bytes)) (name : String) (b : Bytes) :
    List (String × Bytes) :=
  if alookup name objects = none then aset name b objects else objects

/-- One iteration of the staged-files loop of cmd_commit (minigit.py lines
89-106): skip a vanished path, otherwise rehash the bytes on disk, write
or dedup the object and append the file metadata. -/
def commitStep (wt : List (String × Bytes))
    (acc : List FileMeta × List (String × Bytes)) (e : StagedEntry) :
    List FileMeta × List (String × Bytes) :=
  match fsGet norm wt e.path with
  | none => acc
  | some b =>
    (acc.1 ++ [⟨e.path, hash b ++ "_" ++ baseName e.path, hash b⟩],
     putObject acc.2 (hash b ++ "_" ++ baseName e.path) b)

/-- Outcome of cmd_commit: the empty-staging notice (minigit.py lines
80-82) or a created commit with its file count (line 121). -/
inductive CommitResult where
  | emptyStaging : CommitResult
  | created : String → Nat → CommitResult
deriving DecidableEq

/-- Model of cmd_commit (minigit.py lines 76-121). The commit id (uuid4 in
the source, line 85) and the timestamp (line 86) are nondeterministic
inputs of the run and appear as parameters. -/
def cmd_commit (cid ts msg : String) (st : RepoState) :
    RepoState × CommitResult :=
  if st.staged = [] then (st, .emptyStaging)
  else
    let r := st.staged.foldl (commitStep norm hash st.worktree)
      ([], st.objects)
    ({ st with
        objects := r.2
        commits := aset cid ⟨cid, ts, msg, r.1⟩ st.commits
        staged := [] },
     .created cid r.1.length)

/-- One iteration of the restore loop (minigit.py lines 135-147): skip a
file whose object is missing from the store, otherwise overwrite the
target path with the object bytes and count it. -/
def restoreStep (objects : List (String × Bytes))
    (acc : List (String × Bytes) × Nat) (fm : FileMeta) :
    List (String × Bytes) × Nat :=
  match alookup fm.object objects with
  | none => acc
  | some b => (fsPut norm acc.1 fm.path b, acc.2 + 1)

/-- Model of cmd_restore (minigit.py lines 124-149): raise SystemExit when
no commit record has the given id, otherwise process the file entries in
record order and report how many files were actually restored. -/
def cmd_restore (st : RepoState) (cid : String) :
    Except String (RepoState × Nat) :=
  match alookup cid st.commits with
  | none => .error ("No se encontro el commit con id " ++ cid)
  | some c =>
    let r := c.files.foldl (restoreStep norm st.objects) (st.worktree, 0)
    .ok ({ st with worktree := r.1 }, r.2)

/-- Durable snapshots of cmd_commit in source order: the state on entry,
one snapshot after each loop iteration (the object writes of lines
100-101), one after the commit record file is written (lines 115-117) and
one after the index is cleared (line 120). -/
def commitTrace (cid ts msg : String) (st : RepoState) : List DurableState :=
  if st.staged = [] then [st.durable]
  else
    let loopSnaps := (st.staged.foldl
      (fun a e =>
        let acc := commitStep norm hash st.worktree a.1 e
        (acc, a.2 ++ [⟨st.commits, acc.2, st.staged⟩]))
      (([], st.objects), [st.durable])).2
    let r := st.staged.foldl (commitStep norm hash st.worktree)
      ([], st.objects)
    let commits2 := aset cid ⟨cid, ts, msg, r.1⟩ st.commits
    loopSnaps ++ [⟨commits2, r.2, st.staged⟩, ⟨commits2, r.2, []⟩]

/-- Apply a sequence of stage operations; a failed stage raises SystemExit
before any write in the source, leaving the state unchanged. -/
def applyAdds (st : RepoState) (ps : List String) : RepoState :=
  ps.foldl (fun s p =>
    match cmd_add norm hash s p with
    | .ok s2 => s2
    | .error _ => s) st

/-- Statement-side description of the file entries a commit records: the
staged entries in index order, dropping those whose path vanished from the
working tree, each carrying a fingerprint recomputed from the bytes on
disk at commit time. Proven below to match the commit loop. -/
def commitFilesSpec (wt : List (String × Bytes)) (staged : List StagedEntry) :
    List FileMeta :=
  staged.filterMap (fun e =>
    (fsGet norm wt e.path).map
      (fun b => ⟨e.path, hash b ++ "_" ++ baseName e.path, hash b⟩))

end Model

/-! Helper lemmas about the association-list primitives. -/

theorem alookup_aset_self {α : Type} (k : String) (v : α) :
    ∀ l : List (String × α), alookup k (aset k v l) = some v := by
  intro l
  induction l with
  | nil => simp [alookup, aset]
  | cons kv t ih =>
    by_cases h : kv.1 = k
    · simp [aset, h, alookup]
    · simp [aset, h, alookup, ih]

theorem alookup_aset_ne {α : Type} (k k2 : String) (v : α) (hne : k2 ≠ k)
    (l : List (String × α)) : alookup k2 (aset k v l) = alookup k2 l := by
  induction l with
  | nil => simp [alookup, aset, Ne.symm hne]
  | cons kv t ih =>
    simp only [aset]
    by_cases h : kv.1 = k
    · simp [h, alookup, Ne.symm hne]
    · simp only [if_neg h, alookup, ih]

theorem alookup_putObject_isSome (objects : List (String × Bytes))
    (name : String) (b : Bytes) :
    (alookup name (putObject objects name b)).isSome := by
  unfold putObject
  by_cases h : alookup name objects = none
  · simp [h, alookup_aset_self]
  · simpa [h] using Option.isSome_iff_ne_none.mpr h

theorem putObject_of_present (objects : List (String × Bytes))
    (name : String) (b : Bytes) (h : alookup name objects ≠ none) :
    putObject objects name b = objects := by
  simp [putObject, h]

/-! Characterizations of the commit and restore loops. -/

section FoldLemmas

variable (norm : String → String) (hash : Bytes → String)

theorem commitFold_fst (wt : List (String × Bytes)) :
    ∀ (staged : List StagedEntry) (fs : List FileMeta)
      (obs : List (String × Bytes)),
    (staged.foldl (commitStep norm hash wt) (fs, obs)).1
      = fs ++ commitFilesSpec norm hash wt staged := by
  intro staged
  induction staged with
  | nil => intro fs obs; simp [commitFilesSpec]
  | cons e t ih =>
    intro fs obs
    simp only [List.foldl_cons]
    cases h : fsGet norm wt e.path with
    | none =>
      have hspec : commitFilesSpec norm hash wt (e :: t)
          = commitFilesSpec norm hash wt t := by
        simp [commitFilesSpec, h]
      have hstep : commitStep norm hash wt (fs, obs) e = (fs, obs) := by
        simp [commitStep, h]
      rw [hstep, hspec, ih]
    | some b =>
      have hspec : commitFilesSpec norm hash wt (e :: t)
          = ⟨e.path, hash b ++ "_" ++ baseName e.path, hash b⟩ ::
              commitFilesSpec norm hash wt t := by
        simp [commitFilesSpec, h]
      have hstep : commitStep norm hash wt (fs, obs) e
          = (fs ++ [⟨e.path, hash b ++ "_" ++ baseName e.path, hash b⟩],
             putObject obs (hash b ++ "_" ++ baseName e.path) b) := by
        simp [commitStep, h]
      rw [hstep, hspec, ih, List.append_assoc, List.singleton_append]

theorem commitFold_snd_vanished (wt : List (String × Bytes)) :
    ∀ (staged : List StagedEntry),
    (∀ e ∈ staged, fsGet norm wt e.path = none) →
    ∀ (fs : List FileMeta) (obs : List (String × Bytes)),
    (staged.foldl (commitStep norm hash wt) (fs, obs)).2 = obs := by
  intro staged
  induction staged with
  | nil => intro _ fs obs; rfl
  | cons e t ih =>
    intro h fs obs
    have he : fsGet norm wt e.path = none := h e (by simp)
    simp only [List.foldl_cons, commitStep, he]
    exact ih (fun x hx => h x (by simp [hx])) fs obs

theorem commitFold_sha_irrelevant (wt : List (String × Bytes))
    (f : StagedEntry → String) :
    ∀ (staged : List StagedEntry) (a0 : List FileMeta × List (String × Bytes)),
    (staged.map (fun e => ⟨e.path, f e⟩)).foldl (commitStep norm hash wt) a0
      = staged.foldl (commitStep norm hash wt) a0 := by
  intro staged
  induction staged with
  | nil => intro a0; rfl
  | cons e t ih =>
    intro a0
    simp only [List.map_cons, List.foldl_cons]
    have hstep : commitStep norm hash wt a0 ⟨e.path, f e⟩
        = commitStep norm hash wt a0 e := rfl
    rw [hstep]
    exact ih _

theorem restoreFold_count (objects : List (String × Bytes)) :
    ∀ (files : List FileMeta) (wt : List (String × Bytes)) (n : Nat),
    (files.foldl (restoreStep norm objects) (wt, n)).2
      = n + (files.filter
          (fun fm => (alookup fm.object objects).isSome)).length := by
  intro files
  induction files with
  | nil => intro wt n; simp
  | cons fm t ih =>
    intro wt n
    simp only [List.foldl_cons, List.filter_cons]
    cases h : alookup fm.object objects with
    | none =>
      simpa [restoreStep, h] using ih wt n
    | some b =>
      have := ih (fsPut norm wt fm.path b) (n + 1)
      simp only [restoreStep, h] at *
      simp [this, Nat.add_assoc, Nat.add_comm, Nat.add_left_comm]

theorem restoreFold_frame (objects : List (String × Bytes)) (k : String) :
    ∀ (files : List FileMeta) (wt : List (String × Bytes)) (n : Nat),
    (∀ fm ∈ files, norm fm.path ≠ k) →
    alookup k (files.foldl (restoreStep norm objects) (wt, n)).1
      = alookup k wt := by
  intro files
  induction files with
  | nil => intro wt n _; rfl
  | cons fm t ih =>
    intro wt n h
    have hfm : norm fm.path ≠ k := h fm (by simp)
    have ht : ∀ x ∈ t, norm x.path ≠ k := fun x hx => h x (by simp [hx])
    simp only [List.foldl_cons]
    cases hobj : alookup fm.object objects with
    | none => simpa [restoreStep, hobj] using ih wt n ht
    | some b =>
      have := ih (fsPut norm wt fm.path b) (n + 1) ht
      simp only [restoreStep, hobj] at *
      rw [this, fsPut, alookup_aset_ne _ _ _ (Ne.symm hfm)]

theorem commitTrace_fold_fst (wt : List (String × Bytes))
    (C : List (String × CommitObj)) (S : List StagedEntry) :
    ∀ (staged : List StagedEntry)
      (a0 : List FileMeta × List (String × Bytes)) (t0 : List DurableState),
    (staged.foldl (fun a e =>
        let acc := commitStep norm hash wt a.1 e
        (acc, a.2 ++ [⟨C, acc.2, S⟩])) (a0, t0)).1
      = staged.foldl (commitStep norm hash wt) a0 := by
  intro staged
  induction staged with
  | nil => intro a0 t0; rfl
  | cons e t ih =>
    intro a0 t0
    simp only [List.foldl_cons]
    exact ih _ _

theorem commitTrace_fold_mem (wt : List (String × Bytes))
    (C : List (String × CommitObj)) (S : List StagedEntry) :
    ∀ (staged : List StagedEntry)
      (a0 : List FileMeta × List (String × Bytes)) (t0 : List DurableState),
    ∀ d ∈ (staged.foldl (fun a e =>
        let acc := commitStep norm hash wt a.1 e
        (acc, a.2 ++ [⟨C, acc.2, S⟩])) (a0, t0)).2,
      d ∈ t0 ∨ (d.commits = C ∧ d.staged = S) := by
  intro staged
  induction staged with
  | nil => intro a0 t0 d hd; exact Or.inl hd
  | cons e t ih =>
    intro a0 t0 d hd
    simp only [List.foldl_cons] at hd
    rcases ih _ _ d hd with hmem | hCS
    · rcases List.mem_append.mp hmem with h0 | hnew
      · exact Or.inl h0
      · right
        rcases List.mem_singleton.mp hnew with rfl
        exact ⟨rfl, rfl⟩
    · exact Or.inr hCS

end FoldLemmas

/-! Claim theorems. -/

/-- Claim C2: for every repository state whose staging index is empty,
commit reports the empty-staging condition and returns with the whole
state unchanged: no commit record is created, no object is written, and
commit log, object store and staging index keep their values. -/
theorem c2_empty_commit_guard (norm : String → String) (hash : Bytes → String)
    (cid ts msg : String) (st : RepoState) (h : st.staged = []) :
    cmd_commit norm hash cid ts msg st = (st, CommitResult.emptyStaging) := by
  simp [cmd_commit, h]

/-- Witness for C2 at a concrete state with an empty staging index. -/
theorem c2_empty_commit_guard_witness :
    (⟨[("a.txt", [104])], [], [], []⟩ : RepoState).staged = [] ∧
      cmd_commit id (fun _ => "H") "c1" "t" "m"
          ⟨[("a.txt", [104])], [], [], []⟩
        = (⟨[("a.txt", [104])], [], [], []⟩, CommitResult.emptyStaging) :=
  ⟨rfl, c2_empty_commit_guard id (fun _ => "H") "c1" "t" "m"
    ⟨[("a.txt", [104])], [], [], []⟩ rfl⟩

/-- Claim C5: in a nonempty commit, the persisted record lists exactly the
staged entries in staging-index order whose path still exists, each with a
fingerprint recomputed from the bytes on disk at commit time and an object
name derived from that fresh fingerprint; the staged fingerprints are
never consulted, so replacing them arbitrarily changes nothing. -/
theorem c5_commit_refingerprints (norm : String → String)
    (hash : Bytes → String) (cid ts msg : String) (st : RepoState)
    (h : st.staged ≠ []) :
    alookup cid ((cmd_commit norm hash cid ts msg st).1).commits
      = some ⟨cid, ts, msg, commitFilesSpec norm hash st.worktree st.staged⟩
    ∧ (∀ fm ∈ commitFilesSpec norm hash st.worktree st.staged,
        ∃ b, fsGet norm st.worktree fm.path = some b ∧ fm.sha = hash b ∧
          fm.object = hash b ++ "_" ++ baseName fm.path)
    ∧ (∀ f : StagedEntry → String,
        cmd_commit norm hash cid ts msg
            { st with staged := st.staged.map (fun e => ⟨e.path, f e⟩) }
          = cmd_commit norm hash cid ts msg st) := by
  refine ⟨?_, ?_, ?_⟩
  · simp only [cmd_commit, if_neg h]
    rw [commitFold_fst]
    simp [alookup_aset_self]
  · intro fm hfm
    simp only [commitFilesSpec, List.mem_filterMap] at hfm
    obtain ⟨e, _, he⟩ := hfm
    cases hb : fsGet norm st.worktree e.path with
    | none =>
      rw [hb] at he
      exact Option.noConfusion he
    | some b =>
      rw [hb] at he
      obtain rfl : (⟨e.path, hash b ++ "_" ++ baseName e.path, hash b⟩ : FileMeta)
          = fm := Option.some.inj he
      exact ⟨b, hb, rfl, rfl⟩
  · intro f
    have hmap : st.staged.map (fun e => (⟨e.path, f e⟩ : StagedEntry)) ≠ [] := by
      intro hc
      exact h (List.map_eq_nil_iff.mp hc)
    simp only [cmd_commit, if_neg h, if_neg hmap]
    rw [commitFold_sha_irrelevant]

/-- Witness for C5 at a concrete one-entry staging index. -/
theorem c5_commit_refingerprints_witness :
    (⟨[("a.txt", [104])], [], [], [⟨"a.txt", "stale"⟩]⟩ : RepoState).staged ≠ []
    ∧ alookup "c1"
        ((cmd_commit id (fun _ => "H") "c1" "t" "m"
          ⟨[("a.txt", [104])], [], [], [⟨"a.txt", "stale"⟩]⟩).1).commits
        = some ⟨"c1", "t", "m",
            commitFilesSpec id (fun _ => "H") [("a.txt", [104])]
              [⟨"a.txt", "stale"⟩]⟩ :=
  ⟨by decide,
    (c5_commit_refingerprints id (fun _ => "H") "c1" "t" "m"
      ⟨[("a.txt", [104])], [], [], [⟨"a.txt", "stale"⟩]⟩ (by decide)).1⟩

/-- Claim C6: with a nonempty staging index, commit never aborts on a
vanished path: it reports a created commit counting only the entries whose
path still exists, and when every staged path has vanished it still
persists a commit record with an empty file list, leaving the object
store untouched. -/
theorem c6_vanished_tolerance (norm : String → String)
    (hash : Bytes → String) (cid ts msg : String) (st : RepoState)
    (h : st.staged ≠ []) :
    (cmd_commit norm hash cid ts msg st).2
      = CommitResult.created cid
          (commitFilesSpec norm hash st.worktree st.staged).length
    ∧ ((∀ e ∈ st.staged, fsGet norm st.worktree e.path = none) →
        cmd_commit norm hash cid ts msg st
          = ({ st with
                commits := aset cid (⟨cid, ts, msg, []⟩ : CommitObj) st.commits,
                staged := [] },
             CommitResult.created cid 0)) := by
  constructor
  · simp only [cmd_commit, if_neg h]
    rw [commitFold_fst]
    simp
  · intro hvan
    have hfiles : commitFilesSpec norm hash st.worktree st.staged = [] := by
      simp only [commitFilesSpec, List.filterMap_eq_nil_iff]
      intro e he
      simp [hvan e he]
    have hfst := commitFold_fst norm hash st.worktree st.staged [] st.objects
    rw [hfiles, List.append_nil] at hfst
    have hsnd := commitFold_snd_vanished norm hash st.worktree st.staged hvan
      [] st.objects
    simp only [cmd_commit, if_neg h, hfst, hsnd]
    rfl

/-- Witness for C6 at a concrete state where the single staged path has
vanished from the working tree. -/
theorem c6_vanished_tolerance_witness :
    (⟨[], [], [], [⟨"gone.txt", "S"⟩]⟩ : RepoState).staged ≠ []
    ∧ (∀ e ∈ (⟨[], [], [], [⟨"gone.txt", "S"⟩]⟩ : RepoState).staged,
        fsGet id [] e.path = none)
    ∧ cmd_commit id (fun _ => "H") "c9" "t" "m"
          ⟨[], [], [], [⟨"gone.txt", "S"⟩]⟩
        = (⟨[], [], [("c9", ⟨"c9", "t", "m", []⟩)], []⟩,
           CommitResult.created "c9" 0) := by
  refine ⟨by decide, by decide, ?_⟩
  have := (c6_vanished_tolerance id (fun _ => "H") "c9" "t" "m"
    ⟨[], [], [], [⟨"gone.txt", "S"⟩]⟩ (by decide)).2 (by decide)
  rw [this]
  rfl

/-- Claim C7: restore fails on an unknown commit id without restoring
anything; on a known id it processes the file entries in record order,
counts exactly the entries whose object is present in the store, and in
particular a two-file commit with one present and one missing object
restores only the present file and reports a count of 1. -/
theorem c7_restore_contract (norm : String → String) (st : RepoState)
    (cid : String) :
    (alookup cid st.commits = none →
      cmd_restore norm st cid
        = .error ("No se encontro el commit con id " ++ cid))
    ∧ (∀ c, alookup cid st.commits = some c →
        cmd_restore norm st cid
          = .ok ({ st with worktree :=
                (c.files.foldl (restoreStep norm st.objects)
                  (st.worktree, 0)).1 },
              (c.files.filter
                (fun fm => (alookup fm.object st.objects).isSome)).length))
    ∧ (∀ c f1 f2 b1, alookup cid st.commits = some c → c.files = [f1, f2] →
        alookup f1.object st.objects = some b1 →
        alookup f2.object st.objects = none →
        cmd_restore norm st cid
          = .ok ({ st with worktree := fsPut norm st.worktree f1.path b1 },
              1)) := by
  refine ⟨?_, ?_, ?_⟩
  · intro hnone
    simp [cmd_restore, hnone]
  · intro c hc
    simp only [cmd_restore, hc]
    rw [restoreFold_count]
    simp
  · intro c f1 f2 b1 hc hfiles h1 h2
    simp only [cmd_restore, hc, hfiles]
    simp [restoreStep, h1, h2]

/-- Witness for C7: a concrete commit referencing one present and one
missing object restores exactly the present one with a count of 1. -/
theorem c7_restore_contract_witness :
    alookup "c1"
        ([("c1", ⟨"c1", "t", "m", [⟨"a", "H_a", "H"⟩, ⟨"b", "H_b", "H"⟩]⟩)] :
          List (String × CommitObj))
      = some ⟨"c1", "t", "m", [⟨"a", "H_a", "H"⟩, ⟨"b", "H_b", "H"⟩]⟩
    ∧ cmd_restore id
        ⟨[], [("H_a", [104])],
         [("c1", ⟨"c1", "t", "m", [⟨"a", "H_a", "H"⟩, ⟨"b", "H_b", "H"⟩]⟩)], []⟩
        "c1"
      = .ok (⟨[("a", [104])], [("H_a", [104])],
          [("c1", ⟨"c1", "t", "m", [⟨"a", "H_a", "H"⟩, ⟨"b", "H_b", "H"⟩]⟩)],
          []⟩, 1) := by
  constructor
  · decide
  · have := (c7_restore_contract id
      ⟨[], [("H_a", [104])],
       [("c1", ⟨"c1", "t", "m", [⟨"a", "H_a", "H"⟩, ⟨"b", "H_b", "H"⟩]⟩)], []⟩
      "c1").2.2
      ⟨"c1", "t", "m", [⟨"a", "H_a", "H"⟩, ⟨"b", "H_b", "H"⟩]⟩
      ⟨"a", "H_a", "H"⟩ ⟨"b", "H_b", "H"⟩ [104]
      (by decide) rfl (by decide) (by decide)
    rw [this]
    rfl

/-- Claim C10: a successful restore leaves the staging index, the commit
log and the object store exactly as they were; the working tree is
modified only at the normalized paths listed in the restored commit
record. -/
theorem c10_restore_frame (norm : String → String) (st st2 : RepoState)
    (cid : String) (n : Nat)
    (h : cmd_restore norm st cid = .ok (st2, n)) :
    st2.staged = st.staged ∧ st2.commits = st.commits
    ∧ st2.objects = st.objects
    ∧ ∀ c, alookup cid st.commits = some c →
        ∀ q : String, (∀ fm ∈ c.files, norm fm.path ≠ norm q) →
          alookup (norm q) st2.worktree = alookup (norm q) st.worktree := by
  cases hc : alookup cid st.commits with
  | none =>
    rw [cmd_restore, hc] at h
    exact Except.noConfusion h
  | some c0 =>
    rw [cmd_restore, hc] at h
    obtain ⟨h1, h2⟩ := Prod.mk.injEq .. ▸ Except.ok.inj h
    refine ⟨by rw [← h1], by rw [← h1], by rw [← h1], ?_⟩
    intro c hcc q hq
    obtain rfl : c0 = c := Option.some.inj (hc ▸ hcc)
    rw [← h1]
    exact restoreFold_frame norm st.objects (norm q) c0.files st.worktree 0 hq

/-- Claim C9: along the durable snapshots of a nonempty commit, taken in
source order (entry state, after each object write of the loop, after the
commit record file is written, after the index is cleared), every snapshot
whose staging index is empty already holds the persisted commit record:
the index is cleared only after the record is durably written. The last
snapshot is the durable part of the final commit state. -/
theorem c9_clear_after_persist (norm : String → String)
    (hash : Bytes → String) (cid ts msg : String) (st : RepoState)
    (hst : st.staged ≠ []) :
    (∀ d ∈ commitTrace norm hash cid ts msg st,
        d.staged = [] → (alookup cid d.commits).isSome)
    ∧ (commitTrace norm hash cid ts msg st).getLast?
        = some ((cmd_commit norm hash cid ts msg st).1).durable := by
  constructor
  · intro d hd hempty
    simp only [commitTrace, if_neg hst] at hd
    rcases List.mem_append.mp hd with hloop | hlast
    · rcases commitTrace_fold_mem norm hash st.worktree st.commits st.staged
        st.staged ([], st.objects) [st.durable] d hloop with h0 | hCS
      · rcases List.mem_singleton.mp h0 with rfl
        exact absurd hempty hst
      · rw [hCS.2] at hempty
        exact absurd hempty hst
    · rcases List.mem_cons.mp hlast with rfl | h2
      · exact absurd hempty hst
      · rcases List.mem_singleton.mp h2 with rfl
        simpa using congrArg Option.isSome (alookup_aset_self cid
          (⟨cid, ts, msg,
            (st.staged.foldl (commitStep norm hash st.worktree)
              ([], st.objects)).1⟩ : CommitObj) st.commits)
  · simp only [commitTrace, if_neg hst, cmd_commit]
    rw [List.getLast?_append_cons]
    rfl

/-- Witness for C9 at a concrete one-entry staging index. -/
theorem c9_clear_after_persist_witness :
    (⟨[("a.txt", [104])], [], [], [⟨"a.txt", "S"⟩]⟩ : RepoState).staged ≠ []
    ∧ (∀ d ∈ commitTrace id (fun _ => "H") "c1" "t" "m"
          ⟨[("a.txt", [104])], [], [], [⟨"a.txt", "S"⟩]⟩,
        d.staged = [] → (alookup "c1" d.commits).isSome) :=
  ⟨by decide,
    (c9_clear_after_persist id (fun _ => "H") "c1" "t" "m"
      ⟨[("a.txt", [104])], [], [], [⟨"a.txt", "S"⟩]⟩ (by decide)).1⟩

/-! Inversion of a successful stage operation. -/

theorem cmd_add_ok_inv (norm : String → String) (hash : Bytes → String)
    (st st2 : RepoState) (p : String)
    (hadd : cmd_add norm hash st p = .ok st2) :
    ∃ b, fsGet norm st.worktree (norm p) = some b ∧
      st2 = { st with staged :=
        (st.staged.filter (fun s => s.path ≠ norm p)) ++
          [⟨norm p, hash b⟩] } := by
  unfold cmd_add at hadd
  cases hw : fsGet norm st.worktree p with
  | none =>
    rw [hw] at hadd
    exact Except.noConfusion hadd
  | some b0 =>
    rw [hw] at hadd
    cases hb : fsGet norm st.worktree (norm p) with
    | none =>
      rw [hb] at hadd
      exact Except.noConfusion hadd
    | some b =>
      rw [hb] at hadd
      exact ⟨b, rfl, (Except.ok.inj hadd).symm⟩

theorem cmd_add_ok_eq (norm : String → String) (hash : Bytes → String)
    (st st2 : RepoState) (p : String) (b : Bytes)
    (hidem : norm (norm p) = norm p)
    (hfile : fsGet norm st.worktree p = some b)
    (hadd : cmd_add norm hash st p = .ok st2) :
    st2 = { st with staged :=
      (st.staged.filter (fun s => s.path ≠ norm p)) ++ [⟨norm p, hash b⟩] } := by
  obtain ⟨b2, hb2, hst⟩ := cmd_add_ok_inv norm hash st st2 p hadd
  have hbb : b2 = b := by
    unfold fsGet at hb2 hfile
    rw [hidem] at hb2
    exact Option.some.inj (hb2.symm.trans hfile)
  rw [hbb] at hst
  exact hst

/-- Claim C1: stage a file, commit it, delete the working copy, restore
that commit: the restored file at the same path holds exactly the bytes
it had at commit time. The hypothesis on the object store rules out a
pre-existing object of the same name with different bytes, which only a
fingerprint collision could produce (the trust boundary of §9 of the
specification). -/
theorem c1_roundtrip (norm : String → String) (hash : Bytes → String)
    (st st1 : RepoState) (p : String) (b : Bytes) (cid ts msg : String)
    (hidem : norm (norm p) = norm p)
    (hfile : fsGet norm st.worktree p = some b)
    (hstg : st.staged = [])
    (hobj : alookup (hash b ++ "_" ++ baseName (norm p)) st.objects = none
      ∨ alookup (hash b ++ "_" ++ baseName (norm p)) st.objects = some b)
    (hadd : cmd_add norm hash st p = .ok st1) :
    ∃ st2 n,
      cmd_restore norm
          { (cmd_commit norm hash cid ts msg st1).1 with
              worktree :=
                fsDel norm (cmd_commit norm hash cid ts msg st1).1.worktree p }
          cid
        = .ok (st2, n)
      ∧ fsGet norm st2.worktree p = some b ∧ n = 1 := by
  have hst1 := cmd_add_ok_eq norm hash st st1 p b hidem hfile hadd
  rw [hstg, List.filter_nil, List.nil_append] at hst1
  subst hst1
  have hfile2 : fsGet norm st.worktree (norm p) = some b := by
    unfold fsGet at hfile ⊢
    rw [hidem]
    exact hfile
  have hcommit : cmd_commit norm hash cid ts msg
      { st with staged := [⟨norm p, hash b⟩] }
      = ({ st with
            objects := putObject st.objects
              (hash b ++ "_" ++ baseName (norm p)) b,
            commits := aset cid (⟨cid, ts, msg,
              [⟨norm p, hash b ++ "_" ++ baseName (norm p), hash b⟩]⟩ :
                CommitObj) st.commits,
            staged := [] },
         CommitResult.created cid 1) := by
    simp [cmd_commit, commitStep, hfile2]
  rw [hcommit]
  have hobjget : alookup (hash b ++ "_" ++ baseName (norm p))
      (putObject st.objects (hash b ++ "_" ++ baseName (norm p)) b)
      = some b := by
    rcases hobj with h | h
    · rw [putObject, if_pos h]
      exact alookup_aset_self _ _ _
    · rw [putObject, if_neg (by simp [h])]
      exact h
  have hrestore : cmd_restore norm
      { st with
          worktree := fsDel norm st.worktree p,
          objects := putObject st.objects
            (hash b ++ "_" ++ baseName (norm p)) b,
          commits := aset cid (⟨cid, ts, msg,
            [⟨norm p, hash b ++ "_" ++ baseName (norm p), hash b⟩]⟩ :
              CommitObj) st.commits,
          staged := [] }
      cid
      = .ok ({ st with
          worktree := fsPut norm (fsDel norm st.worktree p) (norm p) b,
          objects := putObject st.objects
            (hash b ++ "_" ++ baseName (norm p)) b,
          commits := aset cid (⟨cid, ts, msg,
            [⟨norm p, hash b ++ "_" ++ baseName (norm p), hash b⟩]⟩ :
              CommitObj) st.commits,
          staged := [] }, 1) := by
    simp [cmd_restore, alookup_aset_self, restoreStep, hobjget]
  refine ⟨_, _, hrestore, ?_, rfl⟩
  show fsGet norm (fsPut norm (fsDel norm st.worktree p) (norm p) b) p
    = some b
  unfold fsGet fsPut
  rw [hidem]
  exact alookup_aset_self _ _ _

/-- Witness for C1: a concrete file "a" with bytes [104] staged,
committed, deleted and restored. -/
theorem c1_roundtrip_witness :
    cmd_add id (fun _ => "H") ⟨[("a", [104])], [], [], []⟩ "a"
        = .ok ⟨[("a", [104])], [], [], [⟨"a", "H"⟩]⟩
    ∧ ∃ st2 n,
        cmd_restore id
            { (cmd_commit id (fun _ => "H") "c1" "t" "m"
                ⟨[("a", [104])], [], [], [⟨"a", "H"⟩]⟩).1 with
                worktree := fsDel id
                  (cmd_commit id (fun _ => "H") "c1" "t" "m"
                    ⟨[("a", [104])], [], [], [⟨"a", "H"⟩]⟩).1.worktree "a" }
            "c1"
          = .ok (st2, n)
        ∧ fsGet id st2.worktree "a" = some [104] ∧ n = 1 :=
  ⟨by rfl,
    c1_roundtrip id (fun _ => "H") ⟨[("a", [104])], [], [], []⟩
      ⟨[("a", [104])], [], [], [⟨"a", "H"⟩]⟩ "a" [104] "c1" "t" "m" rfl
      (by decide) rfl (Or.inl (by decide)) (by rfl)⟩

/-- Claim C3: the object-store write is keyed by fingerprint ++ "_" ++
baseName and is a no-op when that name is already present; consequently
staging and committing the same unchanged file twice leaves the object
store of the second commit identical to that of the first. -/
theorem c3_idempotent_dedup (norm : String → String) (hash : Bytes → String)
    (st st1 stA st2 : RepoState) (p : String) (b : Bytes)
    (cid1 ts1 m1 cid2 ts2 m2 : String)
    (hidem : norm (norm p) = norm p)
    (hfile : fsGet norm st.worktree p = some b)
    (hstg : st.staged = [])
    (h1 : cmd_add norm hash st p = .ok st1)
    (hA : stA = (cmd_commit norm hash cid1 ts1 m1 st1).1)
    (h2 : cmd_add norm hash stA p = .ok st2) :
    (∀ (objects : List (String × Bytes)) (name : String) (bb : Bytes),
        alookup name objects ≠ none → putObject objects name bb = objects)
    ∧ (cmd_commit norm hash cid2 ts2 m2 st2).1.objects = stA.objects := by
  refine ⟨fun o n bb h => putObject_of_present o n bb h, ?_⟩
  have hst1 := cmd_add_ok_eq norm hash st st1 p b hidem hfile h1
  rw [hstg, List.filter_nil, List.nil_append] at hst1
  subst hst1
  have hfile2 : fsGet norm st.worktree (norm p) = some b := by
    unfold fsGet at hfile ⊢
    rw [hidem]
    exact hfile
  have hcommit : cmd_commit norm hash cid1 ts1 m1
      { st with staged := [⟨norm p, hash b⟩] }
      = ({ st with
            objects := putObject st.objects
              (hash b ++ "_" ++ baseName (norm p)) b,
            commits := aset cid1 (⟨cid1, ts1, m1,
              [⟨norm p, hash b ++ "_" ++ baseName (norm p), hash b⟩]⟩ :
                CommitObj) st.commits,
            staged := [] },
         CommitResult.created cid1 1) := by
    simp [cmd_commit, commitStep, hfile2]
  have hcommitFst := congrArg Prod.fst hcommit
  have hAw : stA.worktree = st.worktree := by rw [hA, hcommitFst]
  have hAs : stA.staged = [] := by rw [hA, hcommitFst]
  have hAo : stA.objects
      = putObject st.objects (hash b ++ "_" ++ baseName (norm p)) b := by
    rw [hA, hcommitFst]
  obtain ⟨b2, hb2, hst2⟩ := cmd_add_ok_inv norm hash stA st2 p h2
  rw [hAw] at hb2
  have hbb : b2 = b := Option.some.inj (hb2.symm.trans hfile2)
  rw [hbb, hAs, List.filter_nil, List.nil_append] at hst2
  have h2s : st2.staged = [⟨norm p, hash b⟩] := by rw [hst2]
  have h2w : st2.worktree = st.worktree := by rw [hst2]; exact hAw
  have h2o : st2.objects = stA.objects := by rw [hst2]
  have hpres : alookup (hash b ++ "_" ++ baseName (norm p)) st2.objects
      ≠ none := by
    rw [h2o, hAo]
    exact Option.isSome_iff_ne_none.mp
      (alookup_putObject_isSome st.objects
        (hash b ++ "_" ++ baseName (norm p)) b)
  have hfileB : fsGet norm st2.worktree (norm p) = some b := by
    rw [h2w]
    exact hfile2
  have hkey : (cmd_commit norm hash cid2 ts2 m2 st2).1.objects
      = st2.objects := by
    simp only [cmd_commit, h2s]
    rw [if_neg (by simp)]
    simp only [List.foldl_cons, List.foldl_nil, commitStep, hfileB]
    simp [putObject_of_present _ _ _ hpres]
  rw [hkey, h2o]

/-- Witness for C3: committing the unchanged file "a" twice stores no
second object. -/
theorem c3_idempotent_dedup_witness :
    cmd_add id (fun _ => "H")
        (cmd_commit id (fun _ => "H") "c1" "t1" "m1"
          ⟨[("a", [104])], [], [], [⟨"a", "H"⟩]⟩).1 "a"
      = .ok ⟨[("a", [104])], [("H_a", [104])],
          [("c1", ⟨"c1", "t1", "m1", [⟨"a", "H_a", "H"⟩]⟩)], [⟨"a", "H"⟩]⟩
    ∧ (cmd_commit id (fun _ => "H") "c2" "t2" "m2"
        ⟨[("a", [104])], [("H_a", [104])],
          [("c1", ⟨"c1", "t1", "m1", [⟨"a", "H_a", "H"⟩]⟩)],
          [⟨"a", "H"⟩]⟩).1.objects
      = (cmd_commit id (fun _ => "H") "c1" "t1" "m1"
          ⟨[("a", [104])], [], [], [⟨"a", "H"⟩]⟩).1.objects :=
  ⟨by rfl,
    (c3_idempotent_dedup id (fun _ => "H") ⟨[("a", [104])], [], [], []⟩
      ⟨[("a", [104])], [], [], [⟨"a", "H"⟩]⟩
      (cmd_commit id (fun _ => "H") "c1" "t1" "m1"
        ⟨[("a", [104])], [], [], [⟨"a", "H"⟩]⟩).1
      ⟨[("a", [104])], [("H_a", [104])],
        [("c1", ⟨"c1", "t1", "m1", [⟨"a", "H_a", "H"⟩]⟩)], [⟨"a", "H"⟩]⟩
      "a" [104] "c1" "t1" "m1" "c2" "t2" "m2" rfl (by decide) rfl
      (by rfl) rfl (by rfl)).2⟩

/-- Claim C4: a successful stage keeps the staging index free of
duplicate normalized paths and leaves exactly one entry for the staged
path, carrying the fingerprint of the bytes read at this staging; after
any sequence of stage operations an index with no duplicate paths stays
free of duplicates. -/
theorem c4_staging_replace (norm : String → String) (hash : Bytes → String) :
    (∀ (st : RepoState) (p : String) (st2 : RepoState),
        cmd_add norm hash st p = .ok st2 →
        (st.staged.map StagedEntry.path).Nodup →
        (st2.staged.map StagedEntry.path).Nodup)
    ∧ (∀ (st : RepoState) (p : String) (st2 : RepoState),
        cmd_add norm hash st p = .ok st2 →
        ∃ b, fsGet norm st.worktree (norm p) = some b ∧
          st2.staged.filter (fun s => s.path = norm p)
            = [⟨norm p, hash b⟩])
    ∧ (∀ (st : RepoState) (ps : List String),
        (st.staged.map StagedEntry.path).Nodup →
        ((applyAdds norm hash st ps).staged.map StagedEntry.path).Nodup) := by
  have ha : ∀ (st : RepoState) (p : String) (st2 : RepoState),
      cmd_add norm hash st p = .ok st2 →
      (st.staged.map StagedEntry.path).Nodup →
      (st2.staged.map StagedEntry.path).Nodup := by
    intro st p st2 hadd hnd
    obtain ⟨b, _, hst2⟩ := cmd_add_ok_inv norm hash st st2 p hadd
    rw [hst2]
    simp only [List.map_append, List.map_cons, List.map_nil]
    rw [List.nodup_append]
    refine ⟨((List.filter_sublist _).map StagedEntry.path).nodup hnd,
      List.nodup_singleton _, ?_⟩
    intro x hx
    simp only [List.mem_map, List.mem_filter, decide_eq_true_eq] at hx
    obtain ⟨s, ⟨_, hs⟩, rfl⟩ := hx
    simpa using hs
  refine ⟨ha, ?_, ?_⟩
  · intro st p st2 hadd
    obtain ⟨b, hb, hst2⟩ := cmd_add_ok_inv norm hash st st2 p hadd
    refine ⟨b, hb, ?_⟩
    rw [hst2]
    simp only [List.filter_append]
    have h1 : (st.staged.filter (fun s => s.path ≠ norm p)).filter
        (fun s => s.path = norm p) = [] := by
      rw [List.filter_eq_nil_iff]
      intro s hs
      simp only [List.mem_filter, decide_eq_true_eq] at hs
      simp only [decide_eq_true_eq]
      exact hs.2
    rw [h1, List.nil_append]
    simp
  · intro st ps
    induction ps generalizing st with
    | nil => intro h; exact h
    | cons p t ih =>
      intro h
      simp only [applyAdds, List.foldl_cons]
      cases hc : cmd_add norm hash st p with
      | ok s2 =>
        have := ih s2 (ha st p s2 hc h)
        simpa [applyAdds, hc] using this
      | error e =>
        have := ih st h
        simpa [applyAdds, hc] using this

/-- Witness for C4: staging "a" twice leaves a single entry with the
latest fingerprint. -/
theorem c4_staging_replace_witness :
    ((applyAdds id (fun b => (b.foldl (fun a x => a * 256 + x) 1).repr)
        ⟨[("a", [104])], [], [], []⟩ ["a", "a"]).staged.map
          StagedEntry.path).Nodup :=
  (c4_staging_replace id
      (fun b => (b.foldl (fun a x => a * 256 + x) 1).repr)).2.2
    ⟨[("a", [104])], [], [], []⟩ ["a", "a"] (by decide)

/-- Witness for C10 at a concrete one-file restore. -/
theorem c10_restore_frame_witness :
    cmd_restore id
        ⟨[], [("H_a", [104])],
          [("c1", ⟨"c1", "t", "m", [⟨"a", "H_a", "H"⟩]⟩)], []⟩ "c1"
      = .ok (⟨[("a", [104])], [("H_a", [104])],
          [("c1", ⟨"c1", "t", "m", [⟨"a", "H_a", "H"⟩]⟩)], []⟩, 1)
    ∧ ((⟨[("a", [104])], [("H_a", [104])],
          [("c1", ⟨"c1", "t", "m", [⟨"a", "H_a", "H"⟩]⟩)], []⟩ :
            RepoState).staged
        = (⟨[], [("H_a", [104])],
            [("c1", ⟨"c1", "t", "m", [⟨"a", "H_a", "H"⟩]⟩)], []⟩ :
              RepoState).staged
      ∧ (⟨[("a", [104])], [("H_a", [104])],
          [("c1", ⟨"c1", "t", "m", [⟨"a", "H_a", "H"⟩]⟩)], []⟩ :
            RepoState).commits
        = (⟨[], [("H_a", [104])],
            [("c1", ⟨"c1", "t", "m", [⟨"a", "H_a", "H"⟩]⟩)], []⟩ :
              RepoState).commits
      ∧ (⟨[("a", [104])], [("H_a", [104])],
          [("c1", ⟨"c1", "t", "m", [⟨"a", "H_a", "H"⟩]⟩)], []⟩ :
            RepoState).objects
        = (⟨[], [("H_a", [104])],
            [("c1", ⟨"c1", "t", "m", [⟨"a", "H_a", "H"⟩]⟩)], []⟩ :
              RepoState).objects
      ∧ ∀ c, alookup "c1"
            (⟨[], [("H_a", [104])],
              [("c1", ⟨"c1", "t", "m", [⟨"a", "H_a", "H"⟩]⟩)], []⟩ :
                RepoState).commits = some c →
          ∀ q : String, (∀ fm ∈ c.files, id fm.path ≠ id q) →
            alookup (id q)
                (⟨[("a", [104])], [("H_a", [104])],
                  [("c1", ⟨"c1", "t", "m", [⟨"a", "H_a", "H"⟩]⟩)], []⟩ :
                    RepoState).worktree
              = alookup (id q)
                  (⟨[], [("H_a", [104])],
                    [("c1", ⟨"c1", "t", "m", [⟨"a", "H_a", "H"⟩]⟩)], []⟩ :
                      RepoState).worktree) :=
  ⟨by rfl,
    c10_restore_frame id
      ⟨[], [("H_a", [104])],
        [("c1", ⟨"c1", "t", "m", [⟨"a", "H_a", "H"⟩]⟩)], []⟩
      ⟨[("a", [104])], [("H_a", [104])],
        [("c1", ⟨"c1", "t", "m", [⟨"a", "H_a", "H"⟩]⟩)], []⟩
      "c1" 1 (by rfl)⟩

/-- Claim C8 is violated by the code: cmd_commit writes the record file
commits/id.json in overwrite mode (open with "w", minigit.py lines
115-117) with no collision check, so a commit whose freshly generated id
equals the id of an already-persisted record silently replaces it. At
this concrete state the log holds a record with id "c1" and message
"old"; committing again under the colliding id "c1" leaves the log
answering with the new record, the old one no longer retrievable. -/
theorem c8_commit_id_collision_overwrites :
    alookup "c1"
        (⟨[("a", [104])], [], [("c1", ⟨"c1", "t0", "old", []⟩)],
          [⟨"a", "X"⟩]⟩ : RepoState).commits
      = some ⟨"c1", "t0", "old", []⟩
    ∧ alookup "c1"
        (cmd_commit id (fun _ => "H") "c1" "t1" "new"
          ⟨[("a", [104])], [], [("c1", ⟨"c1", "t0", "old", []⟩)],
            [⟨"a", "X"⟩]⟩).1.commits
      = some ⟨"c1", "t1", "new", [⟨"a", "H_a", "H"⟩]⟩ := by
  exact ⟨by decide, by decide⟩

end MiniGit
